import Mathlib

/-!
Verification of the route-discovery and bundling layer of the `remix`
repository (files `packages/core/config.ts`, `packages/core/routesConvention.ts`
and an unnamed variant of `config.ts`).

JavaScript strings are modelled as Lean `String`s and the JS string methods
`startsWith` / `endsWith` as prefix / suffix tests on the underlying character
lists.  Paths are modelled in posix form, so `path.join(a, b)` and
`path.resolve(dir, file)` become string concatenation with `"/"` and
`path.isAbsolute` becomes a leading-`"/"` test.  The filesystem is modelled as
the list of existing file paths, so `fs.existsSync(p)` becomes list membership.
-/

/-- Model of the JS `String.prototype.startsWith` method. -/
def jsStartsWith (s pre : String) : Bool :=
  pre.data.isPrefixOf s.data

/-- Model of the JS `String.prototype.endsWith` method. -/
def jsEndsWith (s suf : String) : Bool :=
  suf.data.isSuffixOf s.data

/-- Model of the JS `a || b` defaulting idiom on an optional string
configuration value: `undefined` and the empty string are falsy. -/
def jsOrDefault (configured : Option String) (deflt : String) : String :=
  match configured with
  | none => deflt
  | some s => if s = "" then deflt else s

/-- Modelled from the spec: the `BuildMode` string constants imported from
`@remix-run/core` are not among the sources; the two values used by the core
(`development`, `production`) are modelled as a two-value type. -/
inductive BuildMode where
  | development
  | production
deriving DecidableEq, Repr

/-- Modelled from the spec: the `BuildTarget` string constants imported from
`@remix-run/core` are not among the sources; the two values used by the core
(`browser`, `server`) are modelled as a two-value type. -/
inductive BuildTarget where
  | browser
  | server
deriving DecidableEq, Repr

/-- Embeds `BuildOptions` from `routesConvention.ts` (`{ mode, target }`). -/
structure BuildOptions where
  mode : BuildMode
  target : BuildTarget
deriving DecidableEq, Repr

/-- Embeds the `Partial<BuildOptions>` argument of `build` / `watch`: each
field may be absent (JS `undefined`), in which case the destructuring default
applies. -/
structure BuildOptionsArg where
  mode : Option BuildMode := none
  target : Option BuildTarget := none
deriving DecidableEq, Repr

/-- Embeds the option defaulting of `build` (`routesConvention.ts` lines
227–234): `mode = BuildMode.Production`, `target = BuildTarget.Server`. -/
def buildResolvedOptions (o : BuildOptionsArg) : BuildOptions :=
  { mode := o.mode.getD BuildMode.production,
    target := o.target.getD BuildTarget.server }

/-- Embeds the option defaulting of `watch` (`routesConvention.ts` lines
259–269): `mode = BuildMode.Development`, `target = BuildTarget.Browser`. -/
def watchResolvedOptions (o : BuildOptionsArg) : BuildOptions :=
  { mode := o.mode.getD BuildMode.development,
    target := o.target.getD BuildTarget.browser }

/-- Embeds `isLocalModuleId` from `routesConvention.ts`: a relative id
(starts with `"."`) or an already-resolved absolute filesystem path
(`path.isAbsolute`, posix: starts with `"/"`). -/
def isLocalModuleId (id : String) : Bool :=
  jsStartsWith id "." || jsStartsWith id "/"

/-- Embeds `importHints` from `routesConvention.ts`. -/
def importHints : List String := ["css:", "img:", "url:"]

/-- Embeds `isImportHint` from `routesConvention.ts`. -/
def isImportHint (id : String) : Bool :=
  importHints.any fun hint => jsStartsWith id hint

/-- Embeds `getExternalOption` from `routesConvention.ts` as the predicate
"module id is classified external".  For `target === BuildTarget.Server` the
source returns the arrow function; for the browser it returns the
`ignorePackages` array (rollup treats an array as an exact-id membership
test).  The `ignorePackages` deny-list itself lives in
`compiler/browserIgnore`, which is not among the sources, so it is passed as
a parameter. -/
def getExternalOption (ignorePackages : List String) (target : BuildTarget)
    (id : String) : Bool :=
  match target with
  | BuildTarget.server => !isLocalModuleId id && !isImportHint id
  | BuildTarget.browser => ignorePackages.contains id

/-- Embeds the rollup `OutputOptions` fields computed by `getOutputOptions`.
The `manualChunks` function field is not modelled (no claim mentions it). -/
structure OutputOptions where
  format : String
  exportsMode : Option String
  assetFileNames : String
  chunkFileNames : String
  entryFileNames : String
deriving DecidableEq, Repr

/-- Embeds `getOutputOptions` from `routesConvention.ts` (lines 526–545),
as a function of the build's `{ mode, target }` options. -/
def getOutputOptions (o : BuildOptions) : OutputOptions :=
  { format := if o.target = BuildTarget.server then "cjs" else "esm",
    exportsMode := if o.target = BuildTarget.server then some "named" else none,
    assetFileNames :=
      if o.mode = BuildMode.production ∧ o.target = BuildTarget.browser then
        "[name]-[hash][extname]"
      else "[name][extname]",
    chunkFileNames := "_shared/[name]-[hash].js",
    entryFileNames :=
      if o.mode = BuildMode.production ∧ o.target = BuildTarget.browser then
        "[name]-[hash].js"
      else "[name].js" }

/-- Embeds the `publicPath` defaulting in `readConfig`
(`config.ts` line 143): `appConfig.publicPath || "/build/"`. -/
def defaultedPublicPath (configured : Option String) : String :=
  jsOrDefault configured "/build/"

/-- Embeds the `publicPath` trailing-slash normalization in `readConfig`
(`config.ts` lines 144–146). -/
def normalizePublicPath (p : String) : String :=
  if jsEndsWith p "/" then p else p ++ "/"

/-- Embeds the full `publicPath` resolution of `readConfig`: defaulting
followed by trailing-slash normalization. -/
def resolvePublicPath (configured : Option String) : String :=
  normalizePublicPath (defaultedPublicPath configured)

/-- Embeds the config-file loading step of `readConfig` (`config.ts` lines
119–124): `require(configFile)` is an effect, modelled by its outcome — either
the loaded `AppConfig` value or a thrown error (with its message).  Any
failure is caught and replaced by the single `Missing remix.config.js` error. -/
def readConfigLoad (AppConfig : Type) (rootDirectory : String)
    (loaded : Except String AppConfig) : Except String AppConfig :=
  match loaded with
  | Except.error _ => Except.error ("Missing remix.config.js in " ++ rootDirectory)
  | Except.ok c => Except.ok c

lemma jsEndsWith_append_slash (s : String) : jsEndsWith (s ++ "/") "/" = true := by
  unfold jsEndsWith
  rw [List.isSuffixOf_iff_suffix, String.data_append]
  exact List.suffix_append _ _

lemma jsEndsWith_normalizePublicPath (p : String) :
    jsEndsWith (normalizePublicPath p) "/" = true := by
  unfold normalizePublicPath
  by_cases h : jsEndsWith p "/" = true
  · simp [h]
  · simp [h, jsEndsWith_append_slash]

/-- C9: with the options argument omitted or partial, `build` defaults to
`{ mode := production, target := server }` while `watch` defaults to
`{ mode := development, target := browser }`; each omitted field takes the
entry point's own default, each supplied field is kept, and the two entry
points' full-default option pairs are opposite in both components. -/
theorem build_watch_opposite_defaults :
    buildResolvedOptions {} = { mode := BuildMode.production, target := BuildTarget.server }
    ∧ watchResolvedOptions {} = { mode := BuildMode.development, target := BuildTarget.browser }
    ∧ (∀ m : BuildMode, buildResolvedOptions { mode := some m }
        = { mode := m, target := BuildTarget.server })
    ∧ (∀ t : BuildTarget, buildResolvedOptions { target := some t }
        = { mode := BuildMode.production, target := t })
    ∧ (∀ m : BuildMode, watchResolvedOptions { mode := some m }
        = { mode := m, target := BuildTarget.browser })
    ∧ (∀ t : BuildTarget, watchResolvedOptions { target := some t }
        = { mode := BuildMode.development, target := t })
    ∧ (∀ m t, buildResolvedOptions { mode := some m, target := some t } = { mode := m, target := t })
    ∧ (∀ m t, watchResolvedOptions { mode := some m, target := some t } = { mode := m, target := t })
    ∧ (buildResolvedOptions {}).mode ≠ (watchResolvedOptions {}).mode
    ∧ (buildResolvedOptions {}).target ≠ (watchResolvedOptions {}).target := by
  refine ⟨rfl, rfl, fun m => rfl, fun t => rfl, fun m => rfl, fun t => rfl,
    fun m t => rfl, fun m t => rfl, by decide, by decide⟩

/-- C5: the external-module classifier is target-dependent.  For
`target = server` an id is external iff it is not relative (leading `"."`),
not absolute (leading `"/"`), and not a virtual-asset import hint
(`css:` / `img:` / `url:` prefix); in particular `"./foo"` is never external
and the bare package name `"react"` always is.  For `target = browser` an id
is external iff it is on the `ignorePackages` deny-list. -/
theorem getExternalOption_spec (ignorePackages : List String) (id : String) :
    (getExternalOption ignorePackages BuildTarget.server id = true ↔
      (jsStartsWith id "." = false ∧ jsStartsWith id "/" = false ∧ isImportHint id = false))
    ∧ (getExternalOption ignorePackages BuildTarget.browser id = true ↔ id ∈ ignorePackages)
    ∧ getExternalOption ignorePackages BuildTarget.server "./foo" = false
    ∧ getExternalOption ignorePackages BuildTarget.server "/abs/path" = false
    ∧ getExternalOption ignorePackages BuildTarget.server "css:./styles.css" = false
    ∧ getExternalOption ignorePackages BuildTarget.server "react" = true := by
  refine ⟨?_, ?_, rfl, rfl, rfl, rfl⟩
  · simp [getExternalOption, isLocalModuleId, Bool.or_eq_true, not_or, and_assoc]
  · simp [getExternalOption, List.contains_iff_exists_mem_beq]

/-- Decides whether a rollup file-name pattern carries the content-hash
placeholder `[hash]`. -/
def hasHashPlaceholder (s : String) : Bool :=
  decide ("[hash]".data <:+: s.data)

/-- C7 counterexample: the claim says that for `target = server` all output
file names are fixed (no content hash) in every mode, but the chunk file name
pattern `_shared/[name]-[hash].js` — used for every mode and every target —
contains the content-hash placeholder `[hash]` even for the server target. -/
theorem getOutputOptions_server_chunk_hashed :
    "[hash]".data <:+:
      (getOutputOptions
        { mode := BuildMode.production, target := BuildTarget.server }).chunkFileNames.data := by
  decide

/-- C7 (amended): entry and asset file names are hash-free for
`target = server` in every mode; for `target = browser` they carry the
content-hash placeholder exactly when `mode = production`; chunk file names
carry the content-hash placeholder for every mode and target. -/
theorem getOutputOptions_naming (mode : BuildMode) (target : BuildTarget) :
    hasHashPlaceholder
      (getOutputOptions { mode := mode, target := BuildTarget.server }).entryFileNames = false
    ∧ hasHashPlaceholder
      (getOutputOptions { mode := mode, target := BuildTarget.server }).assetFileNames = false
    ∧ (hasHashPlaceholder
        (getOutputOptions { mode := mode, target := BuildTarget.browser }).entryFileNames = true
        ↔ mode = BuildMode.production)
    ∧ (hasHashPlaceholder
        (getOutputOptions { mode := mode, target := BuildTarget.browser }).assetFileNames = true
        ↔ mode = BuildMode.production)
    ∧ hasHashPlaceholder
        (getOutputOptions { mode := mode, target := target }).chunkFileNames = true := by
  cases mode <;> cases target <;> exact ⟨by decide, by decide, by decide, by decide, by decide⟩

/-- C8: the resolved `publicPath` always ends in `"/"`, the trailing-slash
normalization is idempotent, and both `"/build"` and `"/build/"` resolve to
`"/build/"`. -/
theorem publicPath_normalized (s : String) :
    jsEndsWith (resolvePublicPath (some s)) "/" = true
    ∧ normalizePublicPath (normalizePublicPath s) = normalizePublicPath s
    ∧ resolvePublicPath (some "/build") = "/build/"
    ∧ resolvePublicPath (some "/build/") = "/build/" := by
  refine ⟨jsEndsWith_normalizePublicPath _, ?_, by decide, by decide⟩
  unfold normalizePublicPath
  by_cases h : jsEndsWith s "/" = true
  · simp [h]
  · simp [h, jsEndsWith_append_slash]

/-- C10: every failure to load `<root>/remix.config.js` — whatever the thrown
error, so a config file that exists but throws is indistinguishable from an
absent one — is reported as the same `Missing remix.config.js in <root>`
error. -/
theorem readConfigLoad_uniform_error (rootDirectory : String) (e₁ e₂ : String) :
    readConfigLoad Unit rootDirectory (Except.error e₁)
      = readConfigLoad Unit rootDirectory (Except.error e₂)
    ∧ readConfigLoad Unit rootDirectory (Except.error e₁)
      = Except.error ("Missing remix.config.js in " ++ rootDirectory) := by
  exact ⟨rfl, rfl⟩

/-- Embeds the `routeIds.slice(0).sort(byLongestFirst)` step of
`findParentRouteId`: the comparator `byLongestFirst` is
`(a, b) => b.length - a.length`, so the JS sort orders by descending string
length; `Array.prototype.sort` is stable, so it is modelled by the stable
insertion sort under the total preorder "left operand at least as long". -/
def sortByLongestFirst (ids : List String) : List String :=
  List.insertionSort (fun a b => b.length ≤ a.length) ids

/-- Embeds `findParentRouteId` from `routesConvention.ts` (lines 123–137):
sort a copy of the ids by descending length, then take the first id `id` such
that `childRouteId.startsWith(id + "/")`. -/
def findParentRouteId (routeIds : List String) (childRouteId : String) :
    Option String :=
  (sortByLongestFirst routeIds).find? fun id => jsStartsWith childRouteId (id ++ "/")

lemma find?_sorted_longest {p : String → Bool} {s : List String} {P : String}
    (hsort : List.Sorted (fun a b : String => b.length ≤ a.length) s)
    (hfind : s.find? p = some P) :
    ∀ x ∈ s, p x = true → x.length ≤ P.length := by
  induction s with
  | nil => simp at hfind
  | cons h t ih =>
    by_cases hp : p h = true
    · rw [List.find?_cons_of_pos _ hp] at hfind
      obtain rfl : h = P := by injection hfind
      intro x hx hpx
      rcases List.mem_cons.1 hx with rfl | hxt
      · exact le_refl _
      · exact List.rel_of_sorted_cons hsort x hxt
    · rw [List.find?_cons_of_neg _ hp] at hfind
      intro x hx hpx
      rcases List.mem_cons.1 hx with rfl | hxt
      · exact absurd hpx hp
      · exact ih hsort.of_cons hfind x hxt hpx

lemma eq_of_slash_prefixes {c A B : String}
    (hA : jsStartsWith c (A ++ "/") = true) (hB : jsStartsWith c (B ++ "/") = true)
    (hlen : A.length = B.length) : A = B := by
  unfold jsStartsWith at hA hB
  rw [List.isPrefixOf_iff_prefix, String.data_append] at hA hB
  have h1 := List.prefix_iff_eq_take.1 hA
  have h2 := List.prefix_iff_eq_take.1 hB
  have hl : (A.data ++ "/".data).length = (B.data ++ "/".data).length := by
    have : A.data.length = B.data.length := hlen
    simp [this]
  have : A.data ++ "/".data = B.data ++ "/".data := by rw [h1, h2, hl]
  have : A.data = B.data := List.append_inj_left this (by exact hlen)
  exact String.ext this

/-- C2: `findParentRouteId` returns the id `A` such that the child id starts
with `A ++ "/"` and no other id in the set is a longer such prefix
(longest-prefix-wins); in particular, among
`["routes", "routes/gists", "routes/gists/$username", "routes/about"]` the
parent of `"routes/gists/$username"` is `"routes/gists"`, not `"routes"`. -/
theorem findParentRouteId_longest (routeIds : List String) (childRouteId A : String)
    (hA : A ∈ routeIds)
    (hpre : jsStartsWith childRouteId (A ++ "/") = true)
    (hmax : ∀ B ∈ routeIds, jsStartsWith childRouteId (B ++ "/") = true →
      B.length ≤ A.length) :
    findParentRouteId routeIds childRouteId = some A
    ∧ findParentRouteId ["routes", "routes/gists", "routes/gists/$username", "routes/about"]
        "routes/gists/$username" = some "routes/gists" := by
  constructor
  · unfold findParentRouteId sortByLongestFirst
    set r : String → String → Prop := fun a b => b.length ≤ a.length with hr
    haveI : IsTotal String r := ⟨fun a b => le_total b.length a.length⟩
    haveI : IsTrans String r := ⟨fun a b c h1 h2 => le_trans h2 h1⟩
    have hperm := List.perm_insertionSort r routeIds
    have hsort := List.sorted_insertionSort r routeIds
    have hAmem : A ∈ List.insertionSort r routeIds := hperm.mem_iff.2 hA
    cases hfind : (List.insertionSort r routeIds).find?
        (fun id => jsStartsWith childRouteId (id ++ "/")) with
    | none =>
      exact absurd hpre (List.find?_eq_none.1 hfind A hAmem)
    | some P =>
      have hpP : jsStartsWith childRouteId (P ++ "/") = true := by
        simpa using List.find?_some hfind
      have hPmem : P ∈ routeIds :=
        hperm.mem_iff.1 (List.mem_of_find?_eq_some hfind)
      have h1 : P.length ≤ A.length := hmax P hPmem hpP
      have h2 : A.length ≤ P.length :=
        find?_sorted_longest hsort hfind A hAmem hpre
      have : A = P := eq_of_slash_prefixes hpre hpP (le_antisymm h2 h1)
      rw [this]
  · decide

/-- C2 witness: the theorem applied to the claim's concrete example. -/
theorem findParentRouteId_longest_witness :
    findParentRouteId ["routes", "routes/gists", "routes/gists/$username", "routes/about"]
      "routes/gists/$username" = some "routes/gists" :=
  (findParentRouteId_longest
    ["routes", "routes/gists", "routes/gists/$username", "routes/about"]
    "routes/gists/$username" "routes/gists"
    (by decide) (by decide) (by decide)).1

/-- Embeds the two global character replacements of `createRoutePath`
(`routesConvention.ts` line 119): `.replace(/\$/g, ":")` followed by
`.replace(/\./g, "/")`.  Both patterns and replacements are single
characters and `":"` is not `"."`, so each replace is a character map. -/
def replaceDollarDot (routeId : String) : String :=
  String.mk ((routeId.data.map fun c => if c = '$' then ':' else c).map
    fun c => if c = '.' then '/' else c)

/-- Model of the JS regex word-character class `\w`, i.e. `[A-Za-z0-9_]`. -/
def isWordChar (c : Char) : Bool :=
  c.isAlpha || c.isDigit || c = '_'

/-- Embeds line 120 of `routesConvention.ts`:
`/\b\/?index$/.test(path) ? path.replace(/\/?index$/, "") : path`.
The test succeeds iff `path` ends in `"index"` and a word boundary precedes
that suffix — matching with the optional `"/"` consumed needs a word
character before a `"/"`, and a `"/"` is itself a non-word character, so the
test reduces to: the character before the `"index"` suffix is absent
(start of string) or a non-word character.  The replacement removes the
leftmost match of `/\/?index$/`, i.e. the trailing `"index"` together with
one immediately preceding `"/"` when present.  The scan from the end of the
string is modelled on the reversed character list (`"index"` reversed is
`"xedni"`). -/
def stripTrailingIndex (p : String) : String :=
  if jsEndsWith p "index" then
    match p.data.reverse.drop 5 with
    | [] => ""
    | c :: rest =>
      if isWordChar c then p
      else if c = '/' then String.mk rest.reverse
      else String.mk ((c :: rest).reverse)
  else p

/-- Embeds `createRoutePath` from `routesConvention.ts` (lines 118–121). -/
def createRoutePath (routeId : String) : String :=
  stripTrailingIndex (replaceDollarDot routeId)

/-- C3 counterexample: `"myindex"` ends in `"index"`, but `createRoutePath`
leaves it unchanged (the regex `/\b\/?index$/` requires a word boundary, and
`y` → `i` is not one), while the claim — trailing `index` removed from any id
ending in `index` — would demand `"my"`. -/
theorem createRoutePath_myindex :
    jsEndsWith "myindex" "index" = true
    ∧ createRoutePath "myindex" = "myindex"
    ∧ createRoutePath "myindex" ≠ "my" := by
  decide

lemma endsIndex_decomp {p : String} (h : jsEndsWith p "index" = true) :
    ∃ t : List Char, p.data = t ++ "index".data := by
  unfold jsEndsWith at h
  rw [List.isSuffixOf_iff_suffix] at h
  obtain ⟨t, ht⟩ := h
  exact ⟨t, ht.symm⟩

lemma reverse_of_decomp {p : String} {t : List Char}
    (h : p.data = t ++ "index".data) :
    p.data.reverse = "xedni".data ++ t.reverse := by
  rw [h, List.reverse_append]
  congr 1

lemma stripTrailingIndex_slash {p : String} {t : List Char}
    (h : p.data = t ++ "/index".data) :
    (stripTrailingIndex p).data = p.data.take (p.data.length - 6) := by
  have hind : p.data = (t ++ ['/']) ++ "index".data := by
    rw [h]; simp
  have hends : jsEndsWith p "index" = true := by
    unfold jsEndsWith
    rw [List.isSuffixOf_iff_suffix, hind]
    exact List.suffix_append _ _
  have hrev : p.data.reverse = "xedni".data ++ ('/' :: t.reverse) := by
    have := reverse_of_decomp hind
    rw [this]; simp
  have hdrop : p.data.reverse.drop 5 = '/' :: t.reverse := by
    rw [hrev]; rfl
  have hlen : p.data.length - 6 = t.length := by
    rw [h]; simp
  unfold stripTrailingIndex
  rw [hends]
  simp only [hdrop, if_true]
  have hw : isWordChar '/' = false := by decide
  rw [hw]
  simp only [Bool.false_eq_true, if_false, if_pos rfl]
  rw [hlen, h]
  have : List.take t.length (t ++ "/index".data) = t := by
    have := List.take_left t "/index".data
    exact this
  rw [this]
  simp

lemma stripTrailingIndex_word {p : String} {c : Char} {t : List Char}
    (h : p.data = (t ++ [c]) ++ "index".data)
    (hword : isWordChar c = true) :
    stripTrailingIndex p = p := by
  have hends : jsEndsWith p "index" = true := by
    unfold jsEndsWith
    rw [List.isSuffixOf_iff_suffix, h]
    exact List.suffix_append _ _
  have hrev : p.data.reverse = "xedni".data ++ (c :: t.reverse) := by
    have := reverse_of_decomp h
    rw [this]; simp
  have hdrop : p.data.reverse.drop 5 = c :: t.reverse := by
    rw [hrev]; rfl
  unfold stripTrailingIndex
  rw [hends]
  simp only [hdrop, hword, if_true]

lemma stripTrailingIndex_nonword {p : String} {c : Char} {t : List Char}
    (h : p.data = (t ++ [c]) ++ "index".data)
    (hword : isWordChar c = false) (hslash : c ≠ '/') :
    (stripTrailingIndex p).data = p.data.take (p.data.length - 5) := by
  have hends : jsEndsWith p "index" = true := by
    unfold jsEndsWith
    rw [List.isSuffixOf_iff_suffix, h]
    exact List.suffix_append _ _
  have hrev : p.data.reverse = "xedni".data ++ (c :: t.reverse) := by
    have := reverse_of_decomp h
    rw [this]; simp
  have hdrop : p.data.reverse.drop 5 = c :: t.reverse := by
    rw [hrev]; rfl
  have hlen : p.data.length - 5 = t.length + 1 := by
    rw [h]; simp
  unfold stripTrailingIndex
  rw [hends]
  simp only [hdrop, hword, Bool.false_eq_true, if_false, hslash, if_true]
  show (c :: t.reverse).reverse = p.data.take (p.data.length - 5)
  rw [hlen, h]
  have : List.take (t.length + 1) ((t ++ [c]) ++ "index".data) = t ++ [c] := by
    have h2 : (t ++ [c]).length = t.length + 1 := by simp
    rw [← h2]
    exact List.take_left _ _
  rw [this]
  simp

lemma stripTrailingIndex_exact {p : String}
    (hends : jsEndsWith p "index" = true) (hlen : p.data.length = 5) :
    stripTrailingIndex p = "" := by
  obtain ⟨t, ht⟩ := endsIndex_decomp hends
  have ht0 : t = [] := by
    have := congrArg List.length ht
    simp [hlen] at this
    exact this
  subst ht0
  have hrev : p.data.reverse = "xedni".data := by
    rw [reverse_of_decomp ht]; rfl
  have hdrop : p.data.reverse.drop 5 = [] := by rw [hrev]; rfl
  unfold stripTrailingIndex
  rw [hends]
  simp only [hdrop, if_true]

/-- C3 (amended): `createRoutePath` maps every `$` to `:` and every `.` to
`/`; it then removes a trailing `index` exactly when a regex word boundary
precedes it — if the result of the replacements does not end in `index` it is
returned unchanged; a trailing `"/index"` is removed whole; a trailing
`"index"` preceded by a word character is kept (no boundary); a trailing
`"index"` preceded by a non-word character other than `/` is removed, keeping
the preceding character; an id that is exactly `index` becomes the empty
string.  The claim's examples `"gists/$username"` → `"gists/:username"`,
`"about.us"` → `"about/us"` and `"gists/index"` → `"gists"` all hold. -/
theorem createRoutePath_spec (s : String) :
    (replaceDollarDot s).data
      = s.data.map (fun c => if c = '$' then ':' else if c = '.' then '/' else c)
    ∧ (jsEndsWith (replaceDollarDot s) "index" = false →
        createRoutePath s = replaceDollarDot s)
    ∧ (jsEndsWith (replaceDollarDot s) "/index" = true →
        (createRoutePath s).data
          = (replaceDollarDot s).data.take ((replaceDollarDot s).data.length - 6))
    ∧ (∀ c : Char, jsEndsWith (replaceDollarDot s) "index" = true →
        (replaceDollarDot s).data[(replaceDollarDot s).data.length - 6]? = some c →
        isWordChar c = true → 6 ≤ (replaceDollarDot s).data.length →
        createRoutePath s = replaceDollarDot s)
    ∧ (∀ c : Char, jsEndsWith (replaceDollarDot s) "index" = true →
        (replaceDollarDot s).data[(replaceDollarDot s).data.length - 6]? = some c →
        isWordChar c = false → c ≠ '/' →
        (createRoutePath s).data
          = (replaceDollarDot s).data.take ((replaceDollarDot s).data.length - 5))
    ∧ (jsEndsWith (replaceDollarDot s) "index" = true →
        (replaceDollarDot s).data.length = 5 → createRoutePath s = "")
    ∧ createRoutePath "gists/$username" = "gists/:username"
    ∧ createRoutePath "about.us" = "about/us"
    ∧ createRoutePath "gists/index" = "gists" := by
  refine ⟨?_, ?_, ?_, ?_, ?_, ?_, by decide, by decide, by decide⟩
  · unfold replaceDollarDot
    show (List.map _ (List.map _ s.data)) = _
    rw [List.map_map]
    apply List.map_congr_left
    intro a _
    by_cases h1 : a = '$'
    · subst h1; simp
    · by_cases h2 : a = '.'
      · subst h2; simp
      · simp [h1, h2]
  · intro h
    unfold createRoutePath stripTrailingIndex
    rw [h]
    simp
  · intro h
    unfold jsEndsWith at h
    rw [List.isSuffixOf_iff_suffix] at h
    obtain ⟨t, ht⟩ := h
    exact stripTrailingIndex_slash ht.symm
  · intro c hends hget hword hlen
    obtain ⟨t, ht⟩ := endsIndex_decomp hends
    rcases List.eq_nil_or_concat t with rfl | ⟨t0, c0, rfl⟩
    · exfalso
      have : (replaceDollarDot s).data.length = 5 := by rw [ht]; rfl
      omega
    · rw [List.concat_eq_append] at ht
      have hassoc : (replaceDollarDot s).data = t0 ++ ([c0] ++ "index".data) := by
        rw [ht]; simp
      have hidx : (replaceDollarDot s).data.length - 6 = t0.length := by
        rw [ht]; simp
      have : (replaceDollarDot s).data[(replaceDollarDot s).data.length - 6]? = some c0 := by
        rw [hidx, hassoc, List.getElem?_append_right (le_refl _)]
        simp
      rw [this] at hget
      obtain rfl : c0 = c := by injection hget
      exact stripTrailingIndex_word ht hword
  · intro c hends hget hword hslash
    obtain ⟨t, ht⟩ := endsIndex_decomp hends
    rcases List.eq_nil_or_concat t with rfl | ⟨t0, c0, rfl⟩
    · exfalso
      have h5 : (replaceDollarDot s).data.length = 5 := by rw [ht]; rfl
      have : (replaceDollarDot s).data[(replaceDollarDot s).data.length - 6]? = some 'i' := by
        rw [h5, ht]; rfl
      rw [this] at hget
      obtain rfl : ('i' : Char) = c := by injection hget
      simp [isWordChar] at hword
    · rw [List.concat_eq_append] at ht
      have hassoc : (replaceDollarDot s).data = t0 ++ ([c0] ++ "index".data) := by
        rw [ht]; simp
      have hidx : (replaceDollarDot s).data.length - 6 = t0.length := by
        rw [ht]; simp
      have : (replaceDollarDot s).data[(replaceDollarDot s).data.length - 6]? = some c0 := by
        rw [hidx, hassoc, List.getElem?_append_right (le_refl _)]
        simp
      rw [this] at hget
      obtain rfl : c0 = c := by injection hget
      exact stripTrailingIndex_nonword ht hword hslash
  · intro hends hlen
    exact stripTrailingIndex_exact hends hlen


/-- C3 witness: the amended theorem applied at `"gists/index"`, whose
replaced form ends in `"/index"`. -/
theorem createRoutePath_spec_witness :
    jsEndsWith (replaceDollarDot "gists/index") "/index" = true
    ∧ (createRoutePath "gists/index").data
        = (replaceDollarDot "gists/index").data.take
            ((replaceDollarDot "gists/index").data.length - 6) :=
  ⟨by decide, (createRoutePath_spec "gists/index").2.2.1 (by decide)⟩

/-- Embeds the per-route record of a `ConfigRouteObject` minus its
`children` — exactly what `createRouteManifest` stores under the route's id
(`let { children, ...rest } = route`).  Fields follow the spec's data model:
`id`, `path`, optional `moduleFile`, optional `stylesFile`, and the optional
`parentId` back-reference to the owning route's id. -/
structure RouteData where
  id : String
  path : String := ""
  moduleFile : Option String := none
  stylesFile : Option String := none
  parentId : Option String := none
deriving DecidableEq, Repr

/-- Embeds the hierarchical tree form of a `ConfigRouteObject`: the record
plus an ordered list of children. -/
inductive RouteObj where
  | node (data : RouteData) (children : List RouteObj)

def RouteObj.data : RouteObj → RouteData
  | node d _ => d

def RouteObj.children : RouteObj → List RouteObj
  | node _ cs => cs

/-- Models the JS object assignment `manifest[route.id] = rest`: an
insertion-ordered map in which assigning an existing key replaces its value
in place and assigning a fresh key appends. -/
def objSet {α : Type} (m : List (String × α)) (key : String) (v : α) :
    List (String × α) :=
  if m.any (fun p => p.1 = key) then
    m.map (fun p => if p.1 = key then (key, v) else p)
  else m ++ [(key, v)]

/-- Models the JS object read `manifest[id]`. -/
def objGet {α : Type} (m : List (String × α)) (key : String) : Option α :=
  (m.find? (fun p => p.1 = key)).map Prod.snd

/-- Embeds `createRouteManifest` from `config.ts` (lines 183–198):
depth-first over the route list, store each node minus its children under its
id, then recurse into the children with the same accumulator. -/
def createRouteManifest : List RouteObj → List (String × RouteData) →
    List (String × RouteData)
  | [], manifest => manifest
  | RouteObj.node d cs :: rest, manifest =>
      createRouteManifest rest (createRouteManifest cs (objSet manifest d.id d))

/-- Preorder list of the node records of a route tree. -/
def RouteObj.nodesOf : RouteObj → List RouteData
  | node d cs => d :: cs.attach.flatMap (fun c => nodesOf c.1)
decreasing_by
  have := List.sizeOf_lt_of_mem c.2
  simp only [RouteObj.node.sizeOf_spec] at *
  omega

/-- Preorder list of all subtrees of a route tree. -/
def RouteObj.subtreesOf : RouteObj → List RouteObj
  | node d cs => node d cs :: cs.attach.flatMap (fun c => subtreesOf c.1)
decreasing_by
  have := List.sizeOf_lt_of_mem c.2
  simp only [RouteObj.node.sizeOf_spec] at *
  omega

/-- The parent-to-child edge set of a route tree, as `(parent id, child id)`
pairs. -/
def treeEdges (t : RouteObj) : List (String × String) :=
  t.subtreesOf.flatMap (fun s => s.children.map (fun c => (s.data.id, c.data.id)))

/-- All route ids occurring in a route tree, in preorder. -/
def allIds (t : RouteObj) : List String :=
  t.nodesOf.map RouteData.id

/-- Decides the data model's `parentId` invariant: every child's `parentId`
is the id of the route that owns it. -/
def wellParentedB : RouteObj → Bool
  | RouteObj.node d cs =>
      cs.all (fun c => c.data.parentId = some d.id) &&
      cs.attach.all (fun c => wellParentedB c.1)
decreasing_by
  have := List.sizeOf_lt_of_mem c.2
  simp only [RouteObj.node.sizeOf_spec] at *
  omega

/-- The parent-to-children edges reconstructed from a manifest: `a → b`
holds when both ids are stored in the manifest and `b`'s stored record names
`a` as its `parentId`. -/
def manifestEdge (m : List (String × RouteData)) (a b : String) : Prop :=
  (∃ ra, objGet m a = some ra) ∧ ∃ rb, objGet m b = some rb ∧ rb.parentId = some a

/-- Structural induction over route trees with list-valued children. -/
theorem RouteObj.induct (P : RouteObj → Prop)
    (h : ∀ d cs, (∀ c ∈ cs, P c) → P (RouteObj.node d cs)) : ∀ t, P t
  | node d cs => h d cs (fun c hc => RouteObj.induct P h c)
decreasing_by
  have := List.sizeOf_lt_of_mem hc
  simp only [RouteObj.node.sizeOf_spec] at *
  omega

lemma flatMap_attach_eq {α β : Type} (l : List α) (f : α → List β) :
    l.attach.flatMap (fun x => f x.1) = l.flatMap f := by
  conv_rhs => rw [← List.attach_map_subtype_val l]
  rw [List.flatMap_map]

lemma nodesOf_node (d : RouteData) (cs : List RouteObj) :
    (RouteObj.node d cs).nodesOf = d :: cs.flatMap RouteObj.nodesOf := by
  rw [RouteObj.nodesOf, flatMap_attach_eq]

lemma subtreesOf_node (d : RouteData) (cs : List RouteObj) :
    (RouteObj.node d cs).subtreesOf
      = RouteObj.node d cs :: cs.flatMap RouteObj.subtreesOf := by
  rw [RouteObj.subtreesOf, flatMap_attach_eq]

lemma attach_all_eq {α : Type} (l : List α) (f : α → Bool) :
    l.attach.all (fun x => f x.1) = l.all f := by
  rw [Bool.eq_iff_iff, List.all_eq_true, List.all_eq_true]
  constructor
  · intro h x hx; exact h ⟨x, hx⟩ (List.mem_attach _ _)
  · intro h x _; exact h x.1 x.2

lemma wellParentedB_node (d : RouteData) (cs : List RouteObj) :
    wellParentedB (RouteObj.node d cs)
      = (cs.all (fun c => c.data.parentId = some d.id) && cs.all wellParentedB) := by
  rw [wellParentedB]
  congr 1
  exact attach_all_eq cs wellParentedB

lemma flatMap_congr_mem {α β : Type} {l : List α} {f g : α → List β}
    (h : ∀ a ∈ l, f a = g a) : l.flatMap f = l.flatMap g := by
  induction l with
  | nil => rfl
  | cons a t ih =>
    simp only [List.flatMap_cons]
    rw [h a (List.mem_cons_self a t), ih (fun x hx => h x (List.mem_cons_of_mem a hx))]

lemma allIds_node (d : RouteData) (cs : List RouteObj) :
    allIds (RouteObj.node d cs) = d.id :: cs.flatMap allIds := by
  unfold allIds
  rw [nodesOf_node]
  simp only [List.map_cons, List.map_flatMap]

lemma objSet_fresh {α : Type} {m : List (String × α)} {key : String} (v : α)
    (h : key ∉ m.map Prod.fst) : objSet m key v = m ++ [(key, v)] := by
  have hfalse : m.any (fun p => p.1 = key) = false := by
    rw [List.any_eq_false]
    intro p hp
    simp only [decide_eq_true_eq]
    intro hpk
    exact h (List.mem_map.2 ⟨p, hp, hpk⟩)
  rw [objSet, hfalse]
  simp

lemma createRouteManifest_append :
    ∀ (ts : List RouteObj) (m : List (String × RouteData)),
    (ts.flatMap allIds).Nodup →
    (∀ k ∈ ts.flatMap allIds, k ∉ m.map Prod.fst) →
    createRouteManifest ts m
      = m ++ (ts.flatMap RouteObj.nodesOf).map (fun d => (d.id, d)) := by
  intro ts m
  induction ts, m using createRouteManifest.induct with
  | case1 manifest =>
    intro _ _
    simp [createRouteManifest]
  | case2 d cs rest manifest ih1 ih2 =>
    intro hnodup hfresh
    have hids : (RouteObj.node d cs :: rest).flatMap allIds
        = d.id :: (cs.flatMap allIds ++ rest.flatMap allIds) := by
      simp [List.flatMap_cons, allIds_node]
    rw [hids] at hnodup hfresh
    have hdid : d.id ∉ manifest.map Prod.fst :=
      hfresh d.id (List.mem_cons_self _ _)
    have hset : objSet manifest d.id d = manifest ++ [(d.id, d)] := objSet_fresh d hdid
    have hnodup_cs : (cs.flatMap allIds).Nodup :=
      ((List.nodup_cons.1 hnodup).2.sublist (List.sublist_append_left _ _))
    have hnodup_rest : (rest.flatMap allIds).Nodup :=
      ((List.nodup_cons.1 hnodup).2.sublist (List.sublist_append_right _ _))
    have hfresh_cs : ∀ k ∈ cs.flatMap allIds, k ∉ (manifest ++ [(d.id, d)]).map Prod.fst := by
      intro k hk
      rw [List.map_append, List.mem_append]
      rintro (hk1 | hk2)
      · exact hfresh k (List.mem_cons_of_mem _ (List.mem_append_left _ hk)) hk1
      · simp at hk2
        exact (List.nodup_cons.1 hnodup).1 (hk2 ▸ List.mem_append_left _ hk)
    rw [createRouteManifest, hset]
    rw [hset] at ih1 ih2
    have e1 := ih1 hnodup_cs hfresh_cs
    rw [e1] at ih2 ⊢
    have hkeys_cs : ((cs.flatMap RouteObj.nodesOf).map (fun d => (d.id, d))).map Prod.fst
        = cs.flatMap allIds := by
      rw [List.map_map]
      show (cs.flatMap RouteObj.nodesOf).map (fun d => d.id) = _
      rw [List.map_flatMap]
      rfl
    have hfresh_rest : ∀ k ∈ rest.flatMap allIds,
        k ∉ ((manifest ++ [(d.id, d)])
              ++ (cs.flatMap RouteObj.nodesOf).map (fun d => (d.id, d))).map Prod.fst := by
      intro k hk
      rw [List.map_append, List.mem_append, List.map_append]
      rintro (hk1 | hk2)
      · rw [List.mem_append] at hk1
        rcases hk1 with hk1a | hk1b
        · exact hfresh k (List.mem_cons_of_mem _ (List.mem_append_right _ hk)) hk1a
        · simp at hk1b
          exact (List.nodup_cons.1 hnodup).1 (hk1b ▸ List.mem_append_right _ hk)
      · rw [hkeys_cs] at hk2
        have hdisj := List.disjoint_of_nodup_append (List.nodup_cons.1 hnodup).2
        exact hdisj hk2 hk
    rw [ih2 hnodup_rest hfresh_rest]
    simp [List.flatMap_cons, nodesOf_node, List.append_assoc]

lemma objGet_eq_some_iff {α : Type} {m : List (String × α)}
    (hnd : (m.map Prod.fst).Nodup) {k : String} {r : α} :
    objGet m k = some r ↔ (k, r) ∈ m := by
  induction m with
  | nil => simp [objGet]
  | cons p t ih =>
    rw [List.map_cons, List.nodup_cons] at hnd
    by_cases hp : p.1 = k
    · unfold objGet
      rw [List.find?_cons_of_pos _ (by simpa using hp)]
      constructor
      · intro h
        have h2 : p.2 = r := by simpa using h
        have hpe : p = (k, r) := by
          obtain ⟨a, b⟩ := p
          simp only at hp h2
          rw [hp, h2]
        rw [← hpe]
        exact List.mem_cons_self _ _
      · intro hmem
        rcases List.mem_cons.1 hmem with heq | hmem2
        · rw [← heq]
          simp
        · exact absurd (by rw [hp]; exact List.mem_map.2 ⟨(k, r), hmem2, rfl⟩) hnd.1
    · unfold objGet
      rw [List.find?_cons_of_neg _ (by simpa using hp)]
      rw [show ((List.find? (fun q => q.1 = k) t).map Prod.snd = objGet t k) from rfl]
      rw [ih hnd.2]
      constructor
      · exact fun h => List.mem_cons_of_mem _ h
      · intro hmem
        rcases List.mem_cons.1 hmem with heq | hmem2
        · exact absurd (by rw [← heq]) hp
        · exact hmem2

lemma subtreesOf_self (t : RouteObj) : t ∈ t.subtreesOf := by
  cases t with
  | node d cs =>
    rw [subtreesOf_node]
    exact List.mem_cons_self _ _

lemma subtrees_trans :
    ∀ (t : RouteObj), ∀ s ∈ t.subtreesOf, ∀ c ∈ s.children, c ∈ t.subtreesOf := by
  intro t
  induction t using RouteObj.induct with
  | h d cs ih =>
    intro s hs c hc
    rw [subtreesOf_node] at hs ⊢
    rcases List.mem_cons.1 hs with rfl | hmem
    · exact List.mem_cons.2 (Or.inr (List.mem_flatMap.2 ⟨c, hc, subtreesOf_self c⟩))
    · obtain ⟨c0, hc0, hs0⟩ := List.mem_flatMap.1 hmem
      exact List.mem_cons.2 (Or.inr (List.mem_flatMap.2 ⟨c0, hc0, ih c0 hc0 s hs0 c hc⟩))

lemma nodesOf_eq_map_subtrees :
    ∀ t : RouteObj, t.nodesOf = t.subtreesOf.map RouteObj.data := by
  intro t
  induction t using RouteObj.induct with
  | h d cs ih =>
    rw [nodesOf_node, subtreesOf_node, List.map_cons, List.map_flatMap]
    show _ :: _ = RouteObj.data (RouteObj.node d cs) :: _
    rw [RouteObj.data]
    congr 1
    exact flatMap_congr_mem ih

lemma wellParented_subtrees :
    ∀ t : RouteObj, wellParentedB t = true →
    ∀ s ∈ t.subtreesOf, ∀ c ∈ s.children, c.data.parentId = some s.data.id := by
  intro t
  induction t using RouteObj.induct with
  | h d cs ih =>
    intro hwp s hs c hc
    rw [wellParentedB_node, Bool.and_eq_true, List.all_eq_true, List.all_eq_true] at hwp
    rw [subtreesOf_node] at hs
    rcases List.mem_cons.1 hs with rfl | hmem
    · have := hwp.1 c hc
      simpa [RouteObj.data] using this
    · obtain ⟨c0, hc0, hs0⟩ := List.mem_flatMap.1 hmem
      exact ih c0 hc0 (hwp.2 c0 hc0) s hs0 c hc

lemma mem_nodesOf_cases :
    ∀ (t : RouteObj) (r : RouteData), r ∈ t.nodesOf →
    r = t.data ∨ ∃ s ∈ t.subtreesOf, ∃ c ∈ s.children, c.data = r := by
  intro t
  induction t using RouteObj.induct with
  | h d cs ih =>
    intro r hr
    rw [nodesOf_node] at hr
    rcases List.mem_cons.1 hr with rfl | hmem
    · exact Or.inl rfl
    · obtain ⟨c0, hc0, hr0⟩ := List.mem_flatMap.1 hmem
      rcases ih c0 hc0 r hr0 with rfl | ⟨s, hs, c, hc, hcd⟩
      · refine Or.inr ⟨RouteObj.node d cs, subtreesOf_self _, c0, ?_, rfl⟩
        rw [RouteObj.children]
        exact hc0
      · refine Or.inr ⟨s, ?_, c, hc, hcd⟩
        rw [subtreesOf_node]
        exact List.mem_cons.2 (Or.inr (List.mem_flatMap.2 ⟨c0, hc0, hs⟩))

lemma mem_treeEdges_iff {t : RouteObj} {a b : String} :
    (a, b) ∈ treeEdges t ↔
      ∃ s ∈ t.subtreesOf, s.data.id = a ∧ ∃ c ∈ s.children, c.data.id = b := by
  unfold treeEdges
  rw [List.mem_flatMap]
  constructor
  · rintro ⟨s, hs, hmem⟩
    obtain ⟨c, hc, hcab⟩ := List.mem_map.1 hmem
    injection hcab with ha hb
    exact ⟨s, hs, ha, c, hc, hb⟩
  · rintro ⟨s, hs, rfl, c, hc, rfl⟩
    exact ⟨s, hs, List.mem_map.2 ⟨c, hc, rfl⟩⟩

/-- The manifest of a single route tree, as `readConfig` produces it:
`createRouteManifest(routes)` with the default empty accumulator. -/
def manifestOf (t : RouteObj) : List (String × RouteData) :=
  createRouteManifest [t] []

/-- C1: for every route tree with pairwise-distinct ids (and the data
model's `parentId` invariant: each child's `parentId` names its owner and the
root has none), flattening with `createRouteManifest` and reconstructing
parent-to-children edges from the stored `parentId` references yields exactly
the original tree's edge set. -/
theorem createRouteManifest_roundTrip (t : RouteObj)
    (hnodup : (allIds t).Nodup) (hwp : wellParentedB t = true)
    (hroot : t.data.parentId = none) (a b : String) :
    manifestEdge (manifestOf t) a b ↔ (a, b) ∈ treeEdges t := by
  have hm : manifestOf t = t.nodesOf.map (fun d => (d.id, d)) := by
    have h := createRouteManifest_append [t] []
      (by simpa using hnodup) (by simp)
    simpa [manifestOf] using h
  have hkeys : ((t.nodesOf.map (fun d => (d.id, d))).map Prod.fst).Nodup := by
    rw [List.map_map]
    exact hnodup
  rw [hm]
  constructor
  · rintro ⟨-, rb, hrb, hpid⟩
    rw [objGet_eq_some_iff hkeys] at hrb
    obtain ⟨d0, hd0, hd0e⟩ := List.mem_map.1 hrb
    injection hd0e with hd0id hd0r
    subst hd0r
    rcases mem_nodesOf_cases t d0 hd0 with rfl | ⟨s, hs, c, hc, hcd⟩
    · rw [hroot] at hpid
      exact absurd hpid (by simp)
    · have hcp := wellParented_subtrees t hwp s hs c hc
      rw [hcd, hpid] at hcp
      injection hcp with ha
      rw [mem_treeEdges_iff]
      exact ⟨s, hs, ha.symm, c, hc, by rw [hcd, hd0id]⟩
  · intro hedge
    rw [mem_treeEdges_iff] at hedge
    obtain ⟨s, hs, ha, c, hc, hb⟩ := hedge
    refine ⟨⟨s.data, ?_⟩, c.data, ?_, ?_⟩
    · rw [objGet_eq_some_iff hkeys]
      refine List.mem_map.2 ⟨s.data, ?_, by rw [ha]⟩
      rw [nodesOf_eq_map_subtrees]
      exact List.mem_map.2 ⟨s, hs, rfl⟩
    · rw [objGet_eq_some_iff hkeys]
      refine List.mem_map.2 ⟨c.data, ?_, by rw [hb]⟩
      rw [nodesOf_eq_map_subtrees]
      exact List.mem_map.2 ⟨c, subtrees_trans t s hs c hc, rfl⟩
    · rw [wellParented_subtrees t hwp s hs c hc, ha]

/-- A concrete route tree used to witness the round-trip theorem. -/
def sampleRouteTree : RouteObj :=
  RouteObj.node { id := "__root" }
    [RouteObj.node { id := "routes/gists", parentId := some "__root" }
       [RouteObj.node { id := "routes/gists/$username", parentId := some "routes/gists" } []],
     RouteObj.node { id := "routes/about", parentId := some "__root" } []]

/-- C1 witness: the round-trip theorem applied to a concrete tree. -/
theorem createRouteManifest_roundTrip_witness :
    (allIds sampleRouteTree).Nodup
    ∧ wellParentedB sampleRouteTree = true
    ∧ sampleRouteTree.data.parentId = none
    ∧ (manifestEdge (manifestOf sampleRouteTree) "__root" "routes/gists"
        ↔ ("__root", "routes/gists") ∈ treeEdges sampleRouteTree) := by
  have h1 : (allIds sampleRouteTree).Nodup := by
    have he : allIds sampleRouteTree
        = ["__root", "routes/gists", "routes/gists/$username", "routes/about"] := by
      simp [sampleRouteTree, allIds_node]
    rw [he]
    decide
  have h2 : wellParentedB sampleRouteTree = true := by
    simp [sampleRouteTree, wellParentedB_node, RouteObj.data]
  exact ⟨h1, h2, rfl, createRouteManifest_roundTrip sampleRouteTree h1 h2 rfl "__root" "routes/gists"⟩

/-- Embeds `entryExts` from `routesConvention.ts` (line 204). -/
def entryExts : List String := [".js", ".jsx", ".ts", ".tsx"]

/-- Embeds `findFile` from `routesConvention.ts` (lines 399–410): try each
extension in order and return the first resolved path that exists.  The
filesystem is the list `fs` of existing paths and `path.resolve(dir, name)`
is posix concatenation. -/
def findFile (fs : List String) (dir : String) (basename : String)
    (possibleExts : List String) : Option String :=
  (possibleExts.find? fun ext => fs.contains (dir ++ "/" ++ basename ++ ext)).map
    fun ext => dir ++ "/" ++ basename ++ ext

/-- The entry basename required for a build target: `entry.client` for the
browser, `entry.server` for the server. -/
def entryBasename (target : BuildTarget) : String :=
  match target with
  | BuildTarget.browser => "entry.client"
  | BuildTarget.server => "entry.server"

/-- Embeds the entry-point part of `getInputOption` (`routesConvention.ts`
lines 359–386): starting from the empty input object, require the target's
entry file or throw the `Missing "entry.client" / "entry.server"` error. -/
def getEntryInput (fs : List String) (appDirectory : String)
    (target : BuildTarget) : Except String (List (String × String)) :=
  match target with
  | BuildTarget.browser =>
    match findFile fs appDirectory "entry.client" entryExts with
    | some entryClientFile =>
        Except.ok (objSet [] "entry.client" entryClientFile)
    | none =>
        Except.error ("Missing \"entry.client\" file in " ++ appDirectory)
  | BuildTarget.server =>
    match findFile fs appDirectory "entry.server" entryExts with
    | some entryServerFile =>
        Except.ok (objSet [] "entry.server" entryServerFile)
    | none =>
        Except.error ("Missing \"entry.server\" file in " ++ appDirectory)

/-- Embeds `getInputOption` from `routesConvention.ts` (lines 359–397): the
entry input followed by the loop over `Object.keys(config.routeManifest)`
that adds `input[route.id] = path.resolve(appDirectory, route.moduleFile)`
for every manifest route that has a `moduleFile`. -/
def getInputOption (fs : List String) (appDirectory : String)
    (routeManifest : List (String × RouteData)) (target : BuildTarget) :
    Except String (List (String × String)) :=
  match getEntryInput fs appDirectory target with
  | Except.error e => Except.error e
  | Except.ok input =>
    Except.ok (routeManifest.foldl (fun input p =>
      match p.2.moduleFile with
      | some m => objSet input p.2.id (appDirectory ++ "/" ++ m)
      | none => input) input)

lemma inputFold_append :
    ∀ (manifest : List (String × RouteData)) (acc : List (String × String))
      (appDir : String),
    (manifest.filterMap (fun p => p.2.moduleFile.map fun _ => p.2.id)).Nodup →
    (∀ k ∈ manifest.filterMap (fun p => p.2.moduleFile.map fun _ => p.2.id),
      k ∉ acc.map Prod.fst) →
    manifest.foldl (fun input p =>
      match p.2.moduleFile with
      | some m => objSet input p.2.id (appDir ++ "/" ++ m)
      | none => input) acc
    = acc ++ manifest.filterMap (fun p => p.2.moduleFile.map
        fun m => (p.2.id, appDir ++ "/" ++ m)) := by
  intro manifest
  induction manifest with
  | nil =>
    intro acc appDir _ _
    simp
  | cons p rest ih =>
    intro acc appDir hnodup hfresh
    cases hm : p.2.moduleFile with
    | none =>
      rw [List.foldl_cons]
      simp only [List.filterMap_cons, hm, Option.map_none'] at hnodup hfresh ⊢
      exact ih acc appDir hnodup hfresh
    | some m =>
      rw [List.foldl_cons]
      simp only [List.filterMap_cons, hm, Option.map_some'] at hnodup hfresh ⊢
      rw [List.nodup_cons] at hnodup
      have hstep : objSet acc p.2.id (appDir ++ "/" ++ m)
          = acc ++ [(p.2.id, appDir ++ "/" ++ m)] :=
        objSet_fresh _ (hfresh p.2.id (List.mem_cons_self _ _))
      rw [hstep]
      rw [ih (acc ++ [(p.2.id, appDir ++ "/" ++ m)]) appDir hnodup.2 ?_]
      · simp
      · intro k hk
        rw [List.map_append, List.mem_append]
        rintro (hk1 | hk2)
        · exact hfresh k (List.mem_cons_of_mem _ hk) hk1
        · simp at hk2
          exact hnodup.1 (hk2 ▸ hk)

lemma getEntryInput_none {fs : List String} {appDir : String} {target : BuildTarget}
    (h : findFile fs appDir (entryBasename target) entryExts = none) :
    ∃ e, getEntryInput fs appDir target = Except.error e := by
  cases target with
  | browser =>
    rw [show entryBasename BuildTarget.browser = "entry.client" from rfl] at h
    refine ⟨"Missing \"entry.client\" file in " ++ appDir, ?_⟩
    unfold getEntryInput
    rw [h]
  | server =>
    rw [show entryBasename BuildTarget.server = "entry.server" from rfl] at h
    refine ⟨"Missing \"entry.server\" file in " ++ appDir, ?_⟩
    unfold getEntryInput
    rw [h]

lemma getEntryInput_some {fs : List String} {appDir : String} {target : BuildTarget}
    {f : String} (h : findFile fs appDir (entryBasename target) entryExts = some f) :
    getEntryInput fs appDir target = Except.ok [(entryBasename target, f)] := by
  cases target with
  | browser =>
    rw [show entryBasename BuildTarget.browser = "entry.client" from rfl] at h ⊢
    unfold getEntryInput
    rw [h]
    rfl
  | server =>
    rw [show entryBasename BuildTarget.server = "entry.server" from rfl] at h ⊢
    unfold getEntryInput
    rw [h]
    rfl

/-- C6: `getInputOption` fails iff the entry module for the requested target
is absent — for the browser no `entry.client` file with one of the
extensions `.js`/`.jsx`/`.ts`/`.tsx` in the app directory, for the server
analogously no `entry.server` file; otherwise the produced input map is the
target's single entry followed by one named input, keyed by the route's id,
for every route manifest entry that has a `moduleFile`. -/
theorem getInputOption_spec (fs : List String) (appDir : String)
    (manifest : List (String × RouteData)) (target : BuildTarget)
    (hnodup : (manifest.filterMap (fun p => p.2.moduleFile.map fun _ => p.2.id)).Nodup)
    (hentry : entryBasename target
      ∉ manifest.filterMap (fun p => p.2.moduleFile.map fun _ => p.2.id)) :
    ((∃ e, getInputOption fs appDir manifest target = Except.error e) ↔
      findFile fs appDir (entryBasename target) entryExts = none)
    ∧ (findFile fs appDir (entryBasename target) entryExts = none ↔
        ∀ ext ∈ entryExts, (appDir ++ "/" ++ entryBasename target ++ ext) ∉ fs)
    ∧ (∀ f, findFile fs appDir (entryBasename target) entryExts = some f →
        getInputOption fs appDir manifest target
          = Except.ok ((entryBasename target, f) ::
              manifest.filterMap (fun p => p.2.moduleFile.map
                fun m => (p.2.id, appDir ++ "/" ++ m)))) := by
  refine ⟨⟨?_, ?_⟩, ?_, ?_⟩
  · rintro ⟨e, he⟩
    cases hf : findFile fs appDir (entryBasename target) entryExts with
    | none => rfl
    | some f =>
      rw [getInputOption, getEntryInput_some hf] at he
      cases he
  · intro hf
    obtain ⟨e, he⟩ := getEntryInput_none hf
    refine ⟨e, ?_⟩
    rw [getInputOption, he]
  · unfold findFile
    rw [Option.map_eq_none', List.find?_eq_none]
    constructor
    · intro h ext hext hmem
      have := h ext hext
      simp only [Bool.not_eq_true] at this
      rw [List.contains_eq_any_beq, List.any_eq_false] at this
      exact absurd (by simp) (this _ hmem)
    · intro h ext hext
      simp only [Bool.not_eq_true]
      rw [List.contains_eq_any_beq, List.any_eq_false]
      intro x hx
      simp only [beq_iff_eq]
      intro hxe
      exact h ext hext (hxe ▸ hx)
  · intro f hf
    rw [getInputOption, getEntryInput_some hf]
    dsimp only
    rw [inputFold_append manifest [(entryBasename target, f)] appDir hnodup ?_]
    · simp
    · intro k hk
      simp only [List.map_cons, List.map_nil, List.mem_singleton]
      intro hke
      exact hentry (hke ▸ hk)

/-- Concrete filesystem used to witness the input-option theorem. -/
def sampleFs : List String := ["app/entry.server.ts", "app/root.js", "app/routes/index.js"]

/-- Concrete route manifest used to witness the input-option theorem. -/
def sampleManifest : List (String × RouteData) :=
  [("__root", { id := "__root", moduleFile := some "root.js" }),
   ("routes/index", { id := "routes/index", moduleFile := some "routes/index.js",
                      parentId := some "__root" })]

/-- C6 witness: the theorem applied to a concrete filesystem and manifest for
`target = server`. -/
theorem getInputOption_spec_witness :
    getInputOption sampleFs "app" sampleManifest BuildTarget.server
      = Except.ok [("entry.server", "app/entry.server.ts"),
          ("__root", "app/root.js"), ("routes/index", "app/routes/index.js")] := by
  have h := (getInputOption_spec sampleFs "app" sampleManifest BuildTarget.server
    (by decide) (by decide)).2.2 "app/entry.server.ts" (by decide)
  simpa [sampleManifest] using h

/-- Embeds the per-route-id file record of `defineConventionalRoutes`
(`routeFiles[routeId] = { module?, styles? }`). -/
structure RouteFiles where
  module : Option String := none
  styles : Option String := none
deriving DecidableEq, Repr

/-- Models `findOrCreateFiles` followed by a field assignment: look up the
record stored under `id` (creating an empty one if absent) and update it. -/
def updateRouteFiles (rf : List (String × RouteFiles)) (id : String)
    (upd : RouteFiles → RouteFiles) : List (String × RouteFiles) :=
  if rf.any (fun p => p.1 = id) then
    rf.map (fun p => if p.1 = id then (id, upd p.2) else p)
  else rf ++ [(id, upd {})]

/-- Embeds the `visitFiles` loop of `defineConventionalRoutes`
(`routesConvention.ts` lines 63–76): classify each file under
`<appDir>/routes` as a module file or a styles file, accumulate the
association per route id, and throw `Invalid route component file` on
anything else.  The classifiers `isModuleFile` / `isStylesFile` and the id
derivation `createRouteId` live in modules that are not among the sources
(`rollup/routeModules`, `rollup/styles`, `routes`), so — modelled from the
spec — they are abstract parameters: pure predicates over the file path and
a pure id-derivation function. -/
def buildRouteFiles (isModule isStyles : String → Bool)
    (createRouteId : String → String) (appDir : String) :
    List String → List (String × RouteFiles) →
    Except String (List (String × RouteFiles))
  | [], acc => Except.ok acc
  | f :: rest, acc =>
    if isModule f then
      buildRouteFiles isModule isStyles createRouteId appDir rest
        (updateRouteFiles acc (createRouteId ("routes/" ++ f))
          (fun r => { r with module := some ("routes/" ++ f) }))
    else if isStyles f then
      buildRouteFiles isModule isStyles createRouteId appDir rest
        (updateRouteFiles acc (createRouteId ("routes/" ++ f))
          (fun r => { r with styles := some ("routes/" ++ f) }))
    else
      Except.error ("Invalid route component file: " ++ appDir ++ "/routes/" ++ f)

/-- The child route ids of a parent in `defineNestedRoutes`
(`routesConvention.ts` lines 40–43): the ids whose inferred parent is the
given one. -/
def childRouteIds (rf : List (String × RouteFiles)) (parentRouteId : Option String) :
    List String :=
  (rf.map Prod.fst).filter
    (fun id => findParentRouteId (rf.map Prod.fst) id = parentRouteId)

/-- Termination measure for the nested-route walk: the number of stored ids
strictly longer than the current parent id (all ids, plus one, at the root). -/
def parentMeasure (rf : List (String × RouteFiles)) : Option String → Nat
  | none => rf.length + 1
  | some p => ((rf.map Prod.fst).filter (fun i => p.length < i.length)).length

lemma findParent_mem_startsWith {ids : List String} {c p : String}
    (h : findParentRouteId ids c = some p) :
    p ∈ ids ∧ jsStartsWith c (p ++ "/") = true := by
  unfold findParentRouteId sortByLongestFirst at h
  constructor
  · exact (List.perm_insertionSort _ ids).mem_iff.1 (List.mem_of_find?_eq_some h)
  · simpa using List.find?_some h

lemma startsWith_slash_length {c p : String}
    (h : jsStartsWith c (p ++ "/") = true) : p.length < c.length := by
  unfold jsStartsWith at h
  rw [List.isPrefixOf_iff_prefix, String.data_append] at h
  have := h.length_le
  simp only [List.length_append] at this
  have h1 : ("/" : String).data.length = 1 := rfl
  rw [h1] at this
  show p.data.length < c.data.length
  omega

lemma filter_length_lt {α : Type} {p q : α → Bool}
    (himp : ∀ a, p a = true → q a = true) :
    ∀ {l : List α} {a : α}, a ∈ l → q a = true → p a = false →
    (l.filter p).length < (l.filter q).length := by
  intro l
  induction l with
  | nil => intro a ha; cases ha
  | cons b t ih =>
    intro a ha hqa hpa
    rcases List.mem_cons.1 ha with rfl | hat
    · have hle : (t.filter p).length ≤ (t.filter q).length :=
        (List.monotone_filter_right t himp).length_le
      simp only [List.filter_cons, hqa, hpa, Bool.false_eq_true, if_false, if_true,
        List.length_cons]
      omega
    · have hlt := ih hat hqa hpa
      cases hpb : p b with
      | true =>
        simp only [List.filter_cons, hpb, himp b hpb, if_true, List.length_cons]
        omega
      | false =>
        cases hqb : q b with
        | true =>
          simp only [List.filter_cons, hpb, hqb, Bool.false_eq_true, if_false, if_true,
            List.length_cons]
          omega
        | false =>
          simp only [List.filter_cons, hpb, hqb, Bool.false_eq_true, if_false]
          exact hlt

lemma mem_childRouteIds {rf : List (String × RouteFiles)} {P : Option String}
    {c : String} (hc : c ∈ childRouteIds rf P) :
    c ∈ rf.map Prod.fst ∧ findParentRouteId (rf.map Prod.fst) c = P := by
  rw [childRouteIds, List.mem_filter] at hc
  exact ⟨hc.1, by simpa using hc.2⟩

lemma parentMeasure_child_lt (rf : List (String × RouteFiles))
    {P : Option String} {c : String} (hc : c ∈ childRouteIds rf P) :
    parentMeasure rf (some c) < parentMeasure rf P := by
  obtain ⟨hmem, hfp⟩ := mem_childRouteIds hc
  cases P with
  | none =>
    calc parentMeasure rf (some c)
        ≤ (rf.map Prod.fst).length := List.length_filter_le _ _
      _ = rf.length := List.length_map _ _
      _ < rf.length + 1 := Nat.lt_succ_self _
  | some p =>
    obtain ⟨-, hsw⟩ := findParent_mem_startsWith hfp
    have hlen : p.length < c.length := startsWith_slash_length hsw
    exact filter_length_lt
      (fun a ha => by
        simp only [decide_eq_true_eq] at ha ⊢
        omega)
      hmem (by simpa using hlen) (by simp)

/-- Model of the JS `String.prototype.slice(n)` method. -/
def jsSlice (s : String) (n : Nat) : String := String.mk (s.data.drop n)

mutual

/-- Embeds `defineNestedRoutes` (`routesConvention.ts` lines 36–61): collect
the route ids whose inferred parent is the given one and define a route for
each in order.  The `defineRoutes` builder itself is in the missing `routes`
module; modelled from the spec, it is the route-tree builder whose
`defineRoute(path, module, { styles }, children)` calls produce the nested
`RouteObj` list, recording the parent id as the `parentId` back-reference. -/
def defineNestedRoutes (rf : List (String × RouteFiles))
    (parentRouteId : Option String) : Except String (List RouteObj) :=
  defineChildRoutes rf parentRouteId (childRouteIds rf parentRouteId).attach
termination_by (parentMeasure rf parentRouteId, (childRouteIds rf parentRouteId).length + 1)
decreasing_by
  simp only [List.length_attach]
  exact Prod.Lex.right _ (Nat.lt_succ_self _)

/-- The per-child loop of `defineNestedRoutes`: for each child route id, if
its record has a module, define the route (computing its path from the id
sliced past the parent, per line 46–48) and recurse into its children;
otherwise throw `There is a styles file for route ..., but no module`.  The
first match arm is unreachable (every child id is a stored key) and reuses
the same error. -/
def defineChildRoutes (rf : List (String × RouteFiles))
    (parentRouteId : Option String)
    (cs : List {c // c ∈ childRouteIds rf parentRouteId}) :
    Except String (List RouteObj) :=
  match cs with
  | [] => Except.ok []
  | c :: rest =>
    match objGet rf c.1 with
    | none =>
      Except.error ("There is a styles file for route \"" ++ c.1 ++ "\", but no module")
    | some files =>
      match files.module with
      | some m =>
        match defineNestedRoutes rf (some c.1) with
        | Except.error e => Except.error e
        | Except.ok children =>
          match defineChildRoutes rf parentRouteId rest with
          | Except.error e => Except.error e
          | Except.ok siblings =>
            Except.ok (RouteObj.node
              { id := c.1,
                path := createRoutePath
                  (jsSlice c.1 ((parentRouteId.getD "routes").length + 1)),
                moduleFile := some m,
                stylesFile := files.styles,
                parentId := parentRouteId } children :: siblings)
      | none =>
        Except.error ("There is a styles file for route \"" ++ c.1 ++ "\", but no module")
termination_by (parentMeasure rf parentRouteId, cs.length)
decreasing_by
  · exact Prod.Lex.left _ _ (parentMeasure_child_lt rf c.2)
  · exact Prod.Lex.right _ (Nat.lt_succ_self _)

end

/-- Embeds `findRootRouteModule` (`routesConvention.ts` lines 104–116): the
first of `<name>.js`, `<name>.jsx`, `<name>.tsx` that exists in the app
directory, else the `No root route module found` error. -/
def findRootRouteModule (appDirFiles : List String) (appDir name : String) :
    Except String String :=
  match (["js", "jsx", "tsx"].map (fun ext => name ++ "." ++ ext)).find?
      (fun n => appDirFiles.contains (appDir ++ "/" ++ n)) with
  | some n => Except.ok n
  | none =>
    Except.error
      "No root route module found. Please create a file at \x60<appDir>/root.\x7bjs,jsx,tsx\x7d\x60"

/-- Models lines 84–87 of `routesConvention.ts`: give a shallow route the
synthetic root's id as its `parentId`. -/
def setShallowParent (id : String) : RouteObj → RouteObj
  | RouteObj.node d cs => RouteObj.node { d with parentId := some id } cs

/-- Embeds `defineConventionalRoutes` (`routesConvention.ts` lines 20–102):
build the per-id file records from the files under `<appDir>/routes`
(classification errors abort), walk the nested routes (a styles-only id
aborts), then require the root layout module (missing root aborts) and wrap
everything under the synthetic `"__" ++ layoutRouteId` root.  The filesystem
is given as the list of file paths under `<appDir>/routes` (relative, as
`visitFiles` yields them) plus the list of existing paths in the app
directory. -/
def defineConventionalRoutes (isModule isStyles : String → Bool)
    (createRouteId : String → String) (appDir : String)
    (routesFiles appDirFiles : List String) (layoutRouteId : String) :
    Except String (List RouteObj) :=
  match buildRouteFiles isModule isStyles createRouteId appDir routesFiles [] with
  | Except.error e => Except.error e
  | Except.ok rf =>
    match defineNestedRoutes rf none with
    | Except.error e => Except.error e
    | Except.ok routes =>
      match findRootRouteModule appDirFiles appDir layoutRouteId with
      | Except.error e => Except.error e
      | Except.ok rootModule =>
        Except.ok [RouteObj.node
          { id := "__" ++ layoutRouteId, path := "/", moduleFile := some rootModule }
          (routes.map (setShallowParent ("__" ++ layoutRouteId)))]

lemma buildRouteFiles_error_iff (isModule isStyles : String → Bool)
    (createRouteId : String → String) (appDir : String) :
    ∀ (files : List String) (acc : List (String × RouteFiles)),
    (∃ e, buildRouteFiles isModule isStyles createRouteId appDir files acc
      = Except.error e)
    ↔ ∃ f ∈ files, isModule f = false ∧ isStyles f = false := by
  intro files
  induction files with
  | nil =>
    intro acc
    simp [buildRouteFiles]
  | cons f rest ih =>
    intro acc
    cases hm : isModule f with
    | true =>
      rw [buildRouteFiles]
      simp only [hm, if_true]
      rw [ih]
      constructor
      · rintro ⟨g, hg, h1, h2⟩
        exact ⟨g, List.mem_cons_of_mem _ hg, h1, h2⟩
      · rintro ⟨g, hg, h1, h2⟩
        rcases List.mem_cons.1 hg with rfl | hgr
        · rw [hm] at h1; cases h1
        · exact ⟨g, hgr, h1, h2⟩
    | false =>
      cases hs : isStyles f with
      | true =>
        rw [buildRouteFiles]
        simp only [hm, hs, Bool.false_eq_true, if_false, if_true]
        rw [ih]
        constructor
        · rintro ⟨g, hg, h1, h2⟩
          exact ⟨g, List.mem_cons_of_mem _ hg, h1, h2⟩
        · rintro ⟨g, hg, h1, h2⟩
          rcases List.mem_cons.1 hg with rfl | hgr
          · rw [hs] at h2; cases h2
          · exact ⟨g, hgr, h1, h2⟩
      | false =>
        rw [buildRouteFiles]
        simp only [hm, hs, Bool.false_eq_true, if_false]
        constructor
        · intro _
          exact ⟨f, List.mem_cons_self _ _, hm, hs⟩
        · intro _
          exact ⟨_, rfl⟩

lemma updateRouteFiles_keys (rf : List (String × RouteFiles)) (id : String)
    (upd : RouteFiles → RouteFiles) :
    (updateRouteFiles rf id upd).map Prod.fst
      = if rf.any (fun p => p.1 = id) then rf.map Prod.fst
        else rf.map Prod.fst ++ [id] := by
  unfold updateRouteFiles
  cases ha : rf.any (fun p => p.1 = id) with
  | true =>
    simp only [if_true, List.map_map]
    apply List.map_congr_left
    intro p _
    by_cases hp : p.1 = id
    · simp [hp]
    · simp [hp]
  | false =>
    simp

lemma updateRouteFiles_keys_nodup {rf : List (String × RouteFiles)} {id : String}
    {upd : RouteFiles → RouteFiles} (h : (rf.map Prod.fst).Nodup) :
    ((updateRouteFiles rf id upd).map Prod.fst).Nodup := by
  rw [updateRouteFiles_keys]
  cases ha : rf.any (fun p => p.1 = id) with
  | true => simpa using h
  | false =>
    simp only [if_false, Bool.false_eq_true]
    rw [List.nodup_append]
    refine ⟨h, List.nodup_singleton _, ?_⟩
    intro k hk
    simp only [List.mem_singleton]
    intro hke
    subst hke
    rw [List.any_eq_false] at ha
    obtain ⟨p, hp, hpk⟩ := List.mem_map.1 hk
    exact absurd (by simpa using hpk) (ha p hp)

lemma buildRouteFiles_ok_nodup {isModule isStyles : String → Bool}
    {createRouteId : String → String} {appDir : String} :
    ∀ {files : List String} {acc rf : List (String × RouteFiles)},
    buildRouteFiles isModule isStyles createRouteId appDir files acc = Except.ok rf →
    (acc.map Prod.fst).Nodup → (rf.map Prod.fst).Nodup := by
  intro files
  induction files with
  | nil =>
    intro acc rf h hacc
    rw [buildRouteFiles] at h
    cases h
    exact hacc
  | cons f rest ih =>
    intro acc rf h hacc
    rw [buildRouteFiles] at h
    by_cases hm : isModule f = true
    · rw [if_pos hm] at h
      exact ih h (updateRouteFiles_keys_nodup hacc)
    · rw [if_neg hm] at h
      by_cases hs : isStyles f = true
      · rw [if_pos hs] at h
        exact ih h (updateRouteFiles_keys_nodup hacc)
      · rw [if_neg hs] at h
        cases h

lemma updateRouteFiles_entry_inv {rf : List (String × RouteFiles)} {id : String}
    {upd : RouteFiles → RouteFiles}
    (hupd : ∀ r, (upd r).module.isSome ∨ (upd r).styles.isSome)
    (h : ∀ p ∈ rf, p.2.module.isSome ∨ p.2.styles.isSome) :
    ∀ p ∈ updateRouteFiles rf id upd, p.2.module.isSome ∨ p.2.styles.isSome := by
  unfold updateRouteFiles
  by_cases ha : rf.any (fun p => p.1 = id) = true
  · rw [if_pos ha]
    intro p hp
    obtain ⟨q, hq, hqe⟩ := List.mem_map.1 hp
    by_cases hqid : q.1 = id
    · rw [if_pos hqid] at hqe
      rw [← hqe]
      exact hupd q.2
    · rw [if_neg hqid] at hqe
      rw [← hqe]
      exact h q hq
  · rw [if_neg ha]
    intro p hp
    rcases List.mem_append.1 hp with hp1 | hp2
    · exact h p hp1
    · rw [List.mem_singleton] at hp2
      rw [hp2]
      exact hupd {}

lemma buildRouteFiles_ok_inv {isModule isStyles : String → Bool}
    {createRouteId : String → String} {appDir : String} :
    ∀ {files : List String} {acc rf : List (String × RouteFiles)},
    buildRouteFiles isModule isStyles createRouteId appDir files acc = Except.ok rf →
    (∀ p ∈ acc, p.2.module.isSome ∨ p.2.styles.isSome) →
    ∀ p ∈ rf, p.2.module.isSome ∨ p.2.styles.isSome := by
  intro files
  induction files with
  | nil =>
    intro acc rf h hacc
    rw [buildRouteFiles] at h
    cases h
    exact hacc
  | cons f rest ih =>
    intro acc rf h hacc
    rw [buildRouteFiles] at h
    by_cases hm : isModule f = true
    · rw [if_pos hm] at h
      exact ih h (updateRouteFiles_entry_inv (fun r => Or.inl rfl) hacc)
    · rw [if_neg hm] at h
      by_cases hs : isStyles f = true
      · rw [if_pos hs] at h
        exact ih h (updateRouteFiles_entry_inv (fun r => Or.inr rfl) hacc)
      · rw [if_neg hs] at h
        cases h

lemma objGet_mem_keys {α : Type} {l : List (String × α)} {k : String}
    (h : k ∈ l.map Prod.fst) : ∃ v, objGet l k = some v := by
  obtain ⟨p, hp, hpk⟩ := List.mem_map.1 h
  unfold objGet
  cases hf : l.find? (fun q => q.1 = k) with
  | none =>
    rw [List.find?_eq_none] at hf
    exact absurd (by simpa using hpk) (by simpa using hf p hp)
  | some q => exact ⟨q.2, rfl⟩

lemma objGet_some_mem {α : Type} {l : List (String × α)} {k : String} {v : α}
    (h : objGet l k = some v) : (k, v) ∈ l := by
  unfold objGet at h
  cases hf : l.find? (fun q => q.1 = k) with
  | none => rw [hf] at h; cases h
  | some q =>
    rw [hf] at h
    have hq1 : q.1 = k := by simpa using List.find?_some hf
    have hq2 : q.2 = v := by simpa using h
    have : q = (k, v) := by
      obtain ⟨a, b⟩ := q
      simp only at hq1 hq2
      rw [hq1, hq2]
    exact this ▸ List.mem_of_find?_eq_some hf

lemma nodup_keys_entry_eq {α : Type} {l : List (String × α)}
    (h : (l.map Prod.fst).Nodup) {k : String} {v w : α}
    (h1 : (k, v) ∈ l) (h2 : (k, w) ∈ l) : v = w := by
  have e1 := (objGet_eq_some_iff h).2 h1
  have e2 := (objGet_eq_some_iff h).2 h2
  rw [e1] at e2
  injection e2

lemma defineChildRoutes_ok_mem {rf : List (String × RouteFiles)}
    {P : Option String} :
    ∀ {cs : List {c // c ∈ childRouteIds rf P}} {l : List RouteObj},
    defineChildRoutes rf P cs = Except.ok l →
    ∀ c ∈ cs, ∃ files, objGet rf c.1 = some files ∧ (∃ m, files.module = some m)
      ∧ ∃ l2, defineNestedRoutes rf (some c.1) = Except.ok l2 := by
  intro cs
  induction cs with
  | nil =>
    intro l _ c hc
    cases hc
  | cons c0 rest ih =>
    intro l h
    rw [defineChildRoutes] at h
    cases hg : objGet rf c0.1 with
    | none => rw [hg] at h; cases h
    | some files =>
      rw [hg] at h
      dsimp only at h
      cases hm : files.module with
      | none => rw [hm] at h; cases h
      | some m =>
        rw [hm] at h
        dsimp only at h
        cases hn : defineNestedRoutes rf (some c0.1) with
        | error e => rw [hn] at h; cases h
        | ok l2 =>
          rw [hn] at h
          dsimp only at h
          cases hr : defineChildRoutes rf P rest with
          | error e => rw [hr] at h; cases h
          | ok sib =>
            intro c hc
            rcases List.mem_cons.1 hc with rfl | hcr
            · exact ⟨files, hg, ⟨m, hm⟩, l2, hn⟩
            · exact ih hr c hcr

lemma allModules_defineChildRoutes_ok {rf : List (String × RouteFiles)}
    (hall : ∀ p ∈ rf, p.2.module.isSome = true) :
    ∀ (n : Nat) (P : Option String), parentMeasure rf P ≤ n →
    ∀ cs : List {c // c ∈ childRouteIds rf P},
    ∃ l, defineChildRoutes rf P cs = Except.ok l := by
  intro n
  induction n with
  | zero =>
    intro P hP cs
    cases cs with
    | nil => exact ⟨[], by rw [defineChildRoutes]⟩
    | cons c rest =>
      exfalso
      have hlt := parentMeasure_child_lt rf c.2
      omega
  | succ n ih =>
    intro P hP cs
    induction cs with
    | nil => exact ⟨[], by rw [defineChildRoutes]⟩
    | cons c rest ihrest =>
      obtain ⟨sib, hsib⟩ := ihrest
      obtain ⟨hmem, -⟩ := mem_childRouteIds c.2
      obtain ⟨files, hg⟩ := objGet_mem_keys hmem
      have hfmem := objGet_some_mem hg
      obtain ⟨m, hm⟩ := Option.isSome_iff_exists.1 (hall _ hfmem)
      have hlt := parentMeasure_child_lt rf c.2
      have hle : parentMeasure rf (some c.1) ≤ n := by omega
      obtain ⟨l2, hl2⟩ : ∃ l2, defineNestedRoutes rf (some c.1) = Except.ok l2 := by
        rw [defineNestedRoutes]
        exact ih (some c.1) hle _
      refine ⟨RouteObj.node
          { id := c.1,
            path := createRoutePath (jsSlice c.1 ((P.getD "routes").length + 1)),
            moduleFile := some m, stylesFile := files.styles, parentId := P } l2 :: sib, ?_⟩
      rw [defineChildRoutes, hg]
      dsimp only
      rw [hm]
      dsimp only
      rw [hl2]
      dsimp only
      rw [hsib]

lemma allModules_walk_ok {rf : List (String × RouteFiles)}
    (hall : ∀ p ∈ rf, p.2.module.isSome = true) (P : Option String) :
    ∃ l, defineNestedRoutes rf P = Except.ok l := by
  rw [defineNestedRoutes]
  exact allModules_defineChildRoutes_ok hall (parentMeasure rf P) P (le_refl _) _

lemma walk_ok_forces_modules {rf : List (String × RouteFiles)}
    (hnd : (rf.map Prod.fst).Nodup) {l0 : List RouteObj}
    (hok : defineNestedRoutes rf none = Except.ok l0) :
    ∀ p ∈ rf, p.2.module.isSome = true := by
  have main : ∀ n : Nat, ∀ k ∈ rf.map Prod.fst, k.length = n →
      ∃ files, objGet rf k = some files ∧ (∃ m, files.module = some m)
        ∧ ∃ l2, defineNestedRoutes rf (some k) = Except.ok l2 := by
    intro n
    induction n using Nat.strong_induction_on with
    | _ n ih =>
      intro k hk hlen
      cases hP : findParentRouteId (rf.map Prod.fst) k with
      | none =>
        have hck : k ∈ childRouteIds rf none := by
          rw [childRouteIds, List.mem_filter]
          exact ⟨hk, by simp [hP]⟩
        rw [defineNestedRoutes] at hok
        exact defineChildRoutes_ok_mem hok ⟨k, hck⟩ (List.mem_attach _ _)
      | some p =>
        obtain ⟨hpmem, hsw⟩ := findParent_mem_startsWith hP
        have hplen : p.length < k.length := startsWith_slash_length hsw
        obtain ⟨-, -, -, lp, hlp⟩ := ih p.length (by omega) p hpmem rfl
        have hck : k ∈ childRouteIds rf (some p) := by
          rw [childRouteIds, List.mem_filter]
          exact ⟨hk, by simp [hP]⟩
        rw [defineNestedRoutes] at hlp
        exact defineChildRoutes_ok_mem hlp ⟨k, hck⟩ (List.mem_attach _ _)
  intro p hp
  have hk : p.1 ∈ rf.map Prod.fst := List.mem_map.2 ⟨p, hp, rfl⟩
  obtain ⟨files, hg, ⟨m, hm⟩, -⟩ := main p.1.length p.1 hk rfl
  have hfm : (p.1, files) ∈ rf := objGet_some_mem hg
  have hpe : files = p.2 := nodup_keys_entry_eq hnd hfm hp
  rw [← hpe, hm]
  rfl

lemma walk_error_iff {rf : List (String × RouteFiles)}
    (hnd : (rf.map Prod.fst).Nodup) :
    (∃ e, defineNestedRoutes rf none = Except.error e)
    ↔ ∃ p ∈ rf, p.2.module = none := by
  constructor
  · rintro ⟨e, he⟩
    by_contra hno
    push_neg at hno
    have hall : ∀ p ∈ rf, p.2.module.isSome = true := by
      intro p hp
      cases hpm : p.2.module with
      | none => exact absurd hpm (hno p hp)
      | some m => rfl
    obtain ⟨l, hl⟩ := allModules_walk_ok hall none
    rw [hl] at he
    cases he
  · rintro ⟨p, hp, hpm⟩
    cases hw : defineNestedRoutes rf none with
    | error e => exact ⟨e, rfl⟩
    | ok l =>
      have := walk_ok_forces_modules hnd hw p hp
      rw [hpm] at this
      cases this

lemma findRootRouteModule_error_iff (appDirFiles : List String)
    (appDir name : String) :
    (∃ e, findRootRouteModule appDirFiles appDir name = Except.error e)
    ↔ ∀ ext ∈ ["js", "jsx", "tsx"],
        (appDir ++ "/" ++ (name ++ "." ++ ext)) ∉ appDirFiles := by
  unfold findRootRouteModule
  cases hf : (["js", "jsx", "tsx"].map (fun ext => name ++ "." ++ ext)).find?
      (fun n => appDirFiles.contains (appDir ++ "/" ++ n)) with
  | some n =>
    constructor
    · rintro ⟨e, he⟩
      cases he
    · intro h
      exfalso
      have hnn : n ∈ ["js", "jsx", "tsx"].map (fun ext => name ++ "." ++ ext) :=
        List.mem_of_find?_eq_some hf
      obtain ⟨ext, hext, hne⟩ := List.mem_map.1 hnn
      have hcont : appDirFiles.contains (appDir ++ "/" ++ n) = true := by
        simpa using List.find?_some hf
      rw [← hne] at hcont
      rw [List.contains_eq_any_beq, List.any_eq_true] at hcont
      obtain ⟨x, hx, hxe⟩ := hcont
      rw [beq_iff_eq] at hxe
      exact h ext hext (by rw [hxe]; exact hx)
  | none =>
    constructor
    · rintro -
      intro ext hext hmem
      rw [List.find?_eq_none] at hf
      have := hf (name ++ "." ++ ext) (List.mem_map.2 ⟨ext, hext, rfl⟩)
      rw [List.contains_eq_any_beq] at this
      simp only [Bool.not_eq_true, List.any_eq_false] at this
      have hx := this _ hmem
      simp at hx
    · intro _
      exact ⟨_, rfl⟩

/-- C4: conventional route resolution fails with an error if and only if a
file under the routes subdirectory is neither a module file nor a styles
file, or some stored route id has a record with no module file (it then has
a styles file, by the entry invariant), or no root layout module
`<layoutRouteId>.{js,jsx,tsx}` exists in the app directory; in every such
case resolution aborts with an error rather than dropping the file. -/
theorem defineConventionalRoutes_error_iff
    (isModule isStyles : String → Bool) (createRouteId : String → String)
    (appDir : String) (routesFiles appDirFiles : List String)
    (layoutRouteId : String) :
    (∃ e, defineConventionalRoutes isModule isStyles createRouteId appDir
        routesFiles appDirFiles layoutRouteId = Except.error e)
    ↔ ((∃ f ∈ routesFiles, isModule f = false ∧ isStyles f = false)
       ∨ (∃ rf, buildRouteFiles isModule isStyles createRouteId appDir routesFiles []
            = Except.ok rf ∧ ∃ p ∈ rf, p.2.module = none ∧ p.2.styles.isSome = true)
       ∨ (∀ ext ∈ ["js", "jsx", "tsx"],
            (appDir ++ "/" ++ (layoutRouteId ++ "." ++ ext)) ∉ appDirFiles)) := by
  cases hb : buildRouteFiles isModule isStyles createRouteId appDir routesFiles [] with
  | error e =>
    have hD1 : ∃ f ∈ routesFiles, isModule f = false ∧ isStyles f = false :=
      (buildRouteFiles_error_iff isModule isStyles createRouteId appDir routesFiles []).1
        ⟨e, hb⟩
    have heq : defineConventionalRoutes isModule isStyles createRouteId appDir
        routesFiles appDirFiles layoutRouteId = Except.error e := by
      unfold defineConventionalRoutes
      rw [hb]
    rw [heq]
    exact ⟨fun _ => Or.inl hD1, fun _ => ⟨e, rfl⟩⟩
  | ok rf =>
    rw [← hb]
    have hnd : (rf.map Prod.fst).Nodup :=
      buildRouteFiles_ok_nodup hb (by simp)
    have hinv : ∀ p ∈ rf, p.2.module.isSome = true ∨ p.2.styles.isSome = true :=
      buildRouteFiles_ok_inv hb (by simp)
    have hD1 : ¬ ∃ f ∈ routesFiles, isModule f = false ∧ isStyles f = false := by
      rw [← buildRouteFiles_error_iff isModule isStyles createRouteId appDir routesFiles []]
      rintro ⟨e, he⟩
      rw [hb] at he
      cases he
    have hD2 : (∃ rf', buildRouteFiles isModule isStyles createRouteId appDir
          routesFiles [] = Except.ok rf'
          ∧ ∃ p ∈ rf', p.2.module = none ∧ p.2.styles.isSome = true)
        ↔ ∃ p ∈ rf, p.2.module = none := by
      constructor
      · rintro ⟨rf', hrf', p, hp, hpm, -⟩
        rw [hb] at hrf'
        injection hrf' with hrf'
        exact ⟨p, hrf' ▸ hp, hpm⟩
      · rintro ⟨p, hp, hpm⟩
        refine ⟨rf, hb, p, hp, hpm, ?_⟩
        rcases hinv p hp with hmod | hsty
        · rw [hpm] at hmod
          cases hmod
        · exact hsty
    cases hw : defineNestedRoutes rf none with
    | error e =>
      have hmodless : ∃ p ∈ rf, p.2.module = none := (walk_error_iff hnd).1 ⟨e, hw⟩
      have heq : defineConventionalRoutes isModule isStyles createRouteId appDir
          routesFiles appDirFiles layoutRouteId = Except.error e := by
        unfold defineConventionalRoutes
        rw [hb]
        dsimp only
        rw [hw]
      rw [heq]
      exact ⟨fun _ => Or.inr (Or.inl (hD2.2 hmodless)), fun _ => ⟨e, rfl⟩⟩
    | ok routes =>
      have hnD2 : ¬ ∃ p ∈ rf, p.2.module = none := by
        rintro hex
        obtain ⟨e, he⟩ := (walk_error_iff hnd).2 hex
        rw [hw] at he
        cases he
      cases hr : findRootRouteModule appDirFiles appDir layoutRouteId with
      | error e =>
        have hD3 : ∀ ext ∈ ["js", "jsx", "tsx"],
            (appDir ++ "/" ++ (layoutRouteId ++ "." ++ ext)) ∉ appDirFiles :=
          (findRootRouteModule_error_iff appDirFiles appDir layoutRouteId).1 ⟨e, hr⟩
        have heq : defineConventionalRoutes isModule isStyles createRouteId appDir
            routesFiles appDirFiles layoutRouteId = Except.error e := by
          unfold defineConventionalRoutes
          rw [hb]
          dsimp only
          rw [hw]
          dsimp only
          rw [hr]
        rw [heq]
        exact ⟨fun _ => Or.inr (Or.inr hD3), fun _ => ⟨e, rfl⟩⟩
      | ok rootModule =>
        have hnD3 : ¬ ∀ ext ∈ ["js", "jsx", "tsx"],
            (appDir ++ "/" ++ (layoutRouteId ++ "." ++ ext)) ∉ appDirFiles := by
          rw [← findRootRouteModule_error_iff appDirFiles appDir layoutRouteId]
          rintro ⟨e, he⟩
          rw [hr] at he
          cases he
        have heq : defineConventionalRoutes isModule isStyles createRouteId appDir
            routesFiles appDirFiles layoutRouteId
            = Except.ok [RouteObj.node
                { id := "__" ++ layoutRouteId, path := "/",
                  moduleFile := some rootModule }
                (routes.map (setShallowParent ("__" ++ layoutRouteId)))] := by
          unfold defineConventionalRoutes
          rw [hb]
          dsimp only
          rw [hw]
          dsimp only
          rw [hr]
        rw [heq]
        constructor
        · rintro ⟨e, he⟩
          cases he
        · rintro (h1 | h2 | h3)
          · exact absurd h1 hD1
          · exact absurd (hD2.1 h2) hnD2
          · exact absurd h3 hnD3
